import Mathlib

/-!
Verification of `whisper_finetune/preprocess.py`.

The module has two pieces of logic worth specifying:

* `skrink_splits` (sic): a dataset-split rebalancer that shrinks named splits
  to target sizes and moves the omitted examples into a designated growth
  split;
* `DataCollatorSpeechSeq2SeqWithPadding.__call__`: the label path of the
  batch collator, which pads label token sequences, masks padding with the
  ignore sentinel `-100`, and conditionally strips a shared leading
  beginning-of-sequence token column.

We embed both shallowly.  A Python `dict` becomes an association list with
insertion-order semantics (`lookup` is `d[k]`, returning `none` for a
`KeyError`; `dictSet` is `d[k] = v`, replacing in place or appending).  The
NumPy generator `np.random.default_rng(seed)` and its method
`rng.choice(n, k, replace=False)` are modelled by an abstract `RngSpec`
threaded through the loop as explicit state; `RngSpec.Valid` captures the
library contract that sampling without replacement returns `k` distinct
indices below `n`.  The HuggingFace tokenizer's `pad` routine is modelled per
its documented convention: right padding to the batch maximum with the pad
token id, attention mask 1 on real tokens and 0 on padding.
-/

namespace WhisperFinetune

/-- Python `d[k]` on a dict modelled as an association list: the value at the
first matching key, `none` when the key is absent (a `KeyError`). -/
def lookup {α : Type} (d : List (String × α)) (k : String) : Option α :=
  match d with
  | [] => none
  | (k', v) :: rest => if k' = k then some v else lookup rest k

/-- Python `d[k] = v` on a dict: replace the value at an existing key in
place, otherwise append the new entry at the end (insertion order). -/
def dictSet {α : Type} (d : List (String × α)) (k : String) (v : α) :
    List (String × α) :=
  match d with
  | [] => [(k, v)]
  | (k', v') :: rest =>
    if k' = k then (k, v) :: rest else (k', v') :: dictSet rest k v

/-- `Dataset.select(idx)`: the examples of `l` at the positions of `idx`, in
the order of `idx`. -/
def select {α : Type} (l : List α) (idx : List Nat) : List α :=
  idx.filterMap (fun i => l[i]?)

/-- `np.setdiff1d(np.arange(n), idx)`: the indices below `n` that are not in
`idx`, in ascending order. -/
def setdiff (n : Nat) (idx : List Nat) : List Nat :=
  (List.range n).filter (fun i => decide (i ∉ idx))

/-- Abstract model of `np.random.default_rng`: `init seed` is the generator's
initial state, `choice st n k` models `rng.choice(n, k, replace=False)` and
returns the sampled indices together with the advanced state. -/
structure RngSpec (σ : Type) where
  init : Nat → σ
  choice : σ → Nat → Nat → List Nat × σ

/-- The library contract of sampling without replacement: for `k ≤ n` the
sample has length `k`, has no duplicates, and every index is below `n`. -/
def RngSpec.Valid {σ : Type} (R : RngSpec σ) : Prop :=
  ∀ (st : σ) (n k : Nat), k ≤ n →
    (R.choice st n k).1.length = k ∧ (R.choice st n k).1.Nodup ∧
      ∀ i ∈ (R.choice st n k).1, i < n

/-- The `for split, size in split_sizes.items():` loop of `skrink_splits`:
threads the generator state, accumulates the shrunk splits (`dataset`) and
the per-split overflow (`moved`) in iteration order.  A missing split is a
`KeyError`, i.e. `none`. -/
def shrinkLoop {σ α : Type} (R : RngSpec σ) (ds : List (String × List α)) :
    List (String × Nat) → σ →
      Option (σ × List (String × List α) × List (List α))
  | [], st => some (st, [], [])
  | (split, size) :: rest, st =>
    match lookup ds split with
    | none => none
    | some l =>
      if l.length > size then
        let p := R.choice st l.length size
        match shrinkLoop R ds rest p.2 with
        | none => none
        | some (st2, dataset, moved) =>
          some (st2, (split, select l p.1) :: dataset,
                select l (setdiff l.length p.1) :: moved)
      else
        shrinkLoop R ds rest st

/-- `skrink_splits(ds, split_sizes, grow_split, seed)`: run the shrink loop,
then overwrite the growth split's entry with the concatenation of the
*input* growth split and all overflow, in loop order. -/
def skrink_splits {σ α : Type} (R : RngSpec σ) (ds : List (String × List α))
    (split_sizes : List (String × Nat)) (grow_split : String) (seed : Nat) :
    Option (List (String × List α)) :=
  match shrinkLoop R ds split_sizes (R.init seed) with
  | none => none
  | some (_, dataset, moved) =>
    match lookup ds grow_split with
    | none => none
    | some g => some (dictSet dataset grow_split (g ++ moved.flatten))

/-- A concrete valid generator used to evaluate the model on concrete inputs:
it always samples the first `k` indices. -/
def natRng : RngSpec Unit where
  init := fun _ => ()
  choice := fun _ _ k => (List.range k, ())

theorem natRng_valid : natRng.Valid := by
  intro st n k hk
  refine ⟨List.length_range k, List.nodup_range k, ?_⟩
  intro i hi
  exact lt_of_lt_of_le (List.mem_range.mp hi) hk

/-! ### Collator label path -/

/-- The batch's maximum label length, the length the tokenizer pads to. -/
def maxLen (seqs : List (List Int)) : Nat :=
  seqs.foldr (fun s m => max s.length m) 0

/-- Right padding of one label sequence to length `m` with the pad token. -/
def padTo (padId : Int) (m : Nat) (s : List Int) : List Int :=
  s ++ List.replicate (m - s.length) padId

/-- The attention mask of one padded sequence: 1 on real tokens, 0 on
padding. -/
def maskTo (m : Nat) (s : List Int) : List Nat :=
  List.replicate s.length 1 ++ List.replicate (m - s.length) 0

/-- `labels_batch["input_ids"].masked_fill(attention_mask.ne(1), -100)` on
one row. -/
def maskedFill (row : List Int) (mask : List Nat) : List Int :=
  List.zipWith (fun x b => if b ≠ 1 then (-100 : Int) else x) row mask

/-- The label matrix after padding and masking: row `i` is sequence `i`
padded to the batch maximum, with every padding position replaced by the
ignore sentinel `-100`. -/
def mkLabels (padId : Int) (seqs : List (List Int)) : List (List Int) :=
  seqs.map (fun s => maskedFill (padTo padId (maxLen seqs) s)
    (maskTo (maxLen seqs) s))

/-- The batch-wide check `(labels[:, 0] == tokenizer.bos_token_id).all()`. -/
def bosAll (bos padId : Int) (seqs : List (List Int)) : Bool :=
  (mkLabels padId seqs).all (fun r => r.getD 0 0 == bos)

/-- The label path of `DataCollatorSpeechSeq2SeqWithPadding.__call__`: pad,
mask padding with `-100`, and strip the first column when every row starts
with the beginning-of-sequence token.  Indexing `labels[:, 0]` on a matrix
with zero columns raises, modelled as `none`. -/
def collateLabels (bos padId : Int) (seqs : List (List Int)) :
    Option (List (List Int)) :=
  let labels := mkLabels padId seqs
  if maxLen seqs = 0 then none
  else if bosAll bos padId seqs then some (labels.map (List.drop 1))
  else some labels

/-! ### Association-list lemmas -/

theorem lookup_dictSet_self {α : Type} (d : List (String × α)) (k : String)
    (v : α) : lookup (dictSet d k v) k = some v := by
  induction d with
  | nil => simp [dictSet, lookup]
  | cons p rest ih =>
    by_cases h : p.1 = k
    · simp [dictSet, h, lookup]
    · simp [dictSet, h, lookup, ih]

theorem lookup_dictSet_ne {α : Type} (d : List (String × α)) (k k' : String)
    (v : α) (h : k' ≠ k) : lookup (dictSet d k v) k' = lookup d k' := by
  have hk : ¬ k = k' := fun hh => h hh.symm
  induction d with
  | nil => simp [dictSet, lookup, hk]
  | cons p rest ih =>
    by_cases hp : p.1 = k
    · subst hp
      simp [dictSet, lookup, hk]
    · simp only [dictSet, if_neg hp, lookup]
      by_cases hpk : p.1 = k'
      · simp [hpk]
      · simp [hpk, ih]

theorem dictSet_not_mem {α : Type} (d : List (String × α)) (k : String)
    (v : α) (h : k ∉ d.map Prod.fst) : dictSet d k v = d ++ [(k, v)] := by
  induction d with
  | nil => simp [dictSet]
  | cons p rest ih =>
    simp only [List.map_cons, List.mem_cons] at h
    push_neg at h
    have hp : ¬ p.1 = k := fun hh => h.1 hh.symm
    simp [dictSet, hp, ih h.2]

/-! ### `select` and `setdiff` lemmas -/

theorem select_length {α : Type} (l : List α) (idx : List Nat)
    (h : ∀ i ∈ idx, i < l.length) : (select l idx).length = idx.length := by
  induction idx with
  | nil => rfl
  | cons i rest ih =>
    have hi : i < l.length := h i (by simp)
    have : l[i]? = some l[i] := List.getElem?_eq_getElem hi
    simp only [select, List.filterMap_cons, this]
    simpa [select] using ih (fun j hj => h j (by simp [hj]))

theorem mem_setdiff {n : Nat} {idx : List Nat} {i : Nat} :
    i ∈ setdiff n idx ↔ i < n ∧ i ∉ idx := by
  simp [setdiff, List.mem_filter, List.mem_range]

theorem setdiff_sorted (n : Nat) (idx : List Nat) :
    List.Pairwise (· < ·) (setdiff n idx) :=
  List.Pairwise.filter _ (List.sorted_lt_range n)

theorem setdiff_length {n : Nat} {idx : List Nat} (hnd : idx.Nodup)
    (hlt : ∀ i ∈ idx, i < n) : (setdiff n idx).length = n - idx.length := by
  have hperm : ((List.range n).filter (fun i => decide (i ∈ idx))).Perm idx := by
    rw [List.perm_ext_iff_of_nodup ((List.nodup_range n).filter _) hnd]
    intro a
    simp [List.mem_filter, List.mem_range]
    intro ha
    exact hlt a ha
  have hsum := (List.filter_append_perm (fun i => decide (i ∈ idx))
    (List.range n)).length_eq
  rw [List.length_append, List.length_range, hperm.length_eq] at hsum
  have hset : setdiff n idx =
      (List.range n).filter (fun x => !decide (x ∈ idx)) := by
    simp [setdiff, decide_not]
  rw [hset]
  omega

/-! ### Shrink-loop lemmas -/

/-- Total number of examples in an (association-list) dataset. -/
def sumLens {α : Type} (d : List (String × List α)) : Nat :=
  (d.map (fun p => p.2.length)).sum

/-- Total number of examples across the input splits restricted to the named
splits and the growth split. -/
def restrictTotal {α : Type} (ds : List (String × List α))
    (names : List String) (grow : String) : Nat :=
  sumLens (ds.filter (fun p => decide (p.1 ∈ names ∨ p.1 = grow)))

theorem shrinkLoop_none {σ α : Type} (R : RngSpec σ)
    (ds : List (String × List α)) (ss : List (String × Nat)) (st : σ)
    (h : ∃ p ∈ ss, lookup ds p.1 = none) :
    shrinkLoop R ds ss st = none := by
  induction ss generalizing st with
  | nil => simp at h
  | cons q rest ih =>
    obtain ⟨p, hp, hnone⟩ := h
    rcases List.mem_cons.mp hp with h1 | h1
    · subst h1
      simp [shrinkLoop, hnone]
    · cases hq : lookup ds q.1 with
      | none => simp [shrinkLoop, hq]
      | some l =>
        have hrec : ∀ st', shrinkLoop R ds rest st' = none :=
          fun st' => ih st' ⟨p, h1, hnone⟩
        by_cases hlen : l.length > q.2
        · simp [shrinkLoop, hq, hlen, hrec]
        · simp [shrinkLoop, hq, hlen, hrec]

theorem shrinkLoop_some {σ α : Type} (R : RngSpec σ)
    (ds : List (String × List α)) (ss : List (String × Nat)) (st : σ)
    (h : ∀ p ∈ ss, ∃ l, lookup ds p.1 = some l) :
    ∃ res, shrinkLoop R ds ss st = some res := by
  induction ss generalizing st with
  | nil => exact ⟨(st, [], []), rfl⟩
  | cons q rest ih =>
    obtain ⟨l, hl⟩ := h q (by simp)
    have hrest : ∀ st', ∃ res, shrinkLoop R ds rest st' = some res :=
      fun st' => ih st' (fun p hp => h p (by simp [hp]))
    by_cases hlen : l.length > q.2
    · obtain ⟨⟨st2, dataset, moved⟩, hres⟩ :=
        hrest (R.choice st l.length q.2).2
      refine ⟨(st2, (q.1, select l (R.choice st l.length q.2).1) :: dataset,
        select l (setdiff l.length (R.choice st l.length q.2).1) :: moved), ?_⟩
      simp only [shrinkLoop, hl, if_pos hlen, hres]
    · obtain ⟨res, hres⟩ := hrest st
      refine ⟨res, ?_⟩
      simp only [shrinkLoop, hl, if_neg hlen, hres]

theorem shrinkLoop_noop {σ α : Type} (R : RngSpec σ)
    (ds : List (String × List α)) (ss : List (String × Nat)) (st : σ)
    (hle : ∀ p ∈ ss, ∀ l, lookup ds p.1 = some l → l.length ≤ p.2)
    (hsome : ∀ p ∈ ss, ∃ l, lookup ds p.1 = some l) :
    shrinkLoop R ds ss st = some (st, [], []) := by
  induction ss generalizing st with
  | nil => rfl
  | cons q rest ih =>
    obtain ⟨l, hl⟩ := hsome q (by simp)
    have hlen : ¬ l.length > q.2 := by
      have := hle q (by simp) l hl
      omega
    have := ih st (fun p hp l' hl' => hle p (by simp [hp]) l' hl')
      (fun p hp => hsome p (by simp [hp]))
    simp only [shrinkLoop, hl, if_neg hlen, this]

theorem shrinkLoop_keys {σ α : Type} (R : RngSpec σ)
    (ds : List (String × List α)) (ss : List (String × Nat)) (st st2 : σ)
    (dsOut : List (String × List α)) (moved : List (List α))
    (h : shrinkLoop R ds ss st = some (st2, dsOut, moved)) :
    ∀ q ∈ dsOut, ∃ sz l, (q.1, sz) ∈ ss ∧ lookup ds q.1 = some l ∧
      sz < l.length := by
  induction ss generalizing st st2 dsOut moved with
  | nil =>
    simp only [shrinkLoop, Option.some.injEq, Prod.mk.injEq] at h
    obtain ⟨-, h2, -⟩ := h
    simp [← h2]
  | cons p rest ih =>
    cases hl : lookup ds p.1 with
    | none => simp [shrinkLoop, hl] at h
    | some l =>
      by_cases hlen : l.length > p.2
      · simp only [shrinkLoop, hl, if_pos hlen] at h
        cases hrec : shrinkLoop R ds rest (R.choice st l.length p.2).2 with
        | none => rw [hrec] at h; simp at h
        | some res =>
          obtain ⟨st2', dsOut', moved'⟩ := res
          rw [hrec] at h
          simp only [Option.some.injEq, Prod.mk.injEq] at h
          obtain ⟨-, h2, -⟩ := h
          intro q hq
          rw [← h2] at hq
          rcases List.mem_cons.mp hq with hq1 | hq1
          · subst hq1
            exact ⟨p.2, l, by simp, hl, hlen⟩
          · obtain ⟨sz, l', hmem, hlk, hsz⟩ :=
              ih _ _ _ _ hrec q hq1
            exact ⟨sz, l', by simp [hmem], hlk, hsz⟩
      · simp only [shrinkLoop, hl, if_neg hlen] at h
        intro q hq
        obtain ⟨sz, l', hmem, hlk, hsz⟩ := ih _ _ _ _ h q hq
        exact ⟨sz, l', by simp [hmem], hlk, hsz⟩

theorem shrinkLoop_sum {σ α : Type} (R : RngSpec σ) (hV : R.Valid)
    (ds : List (String × List α)) (ss : List (String × Nat)) (st st2 : σ)
    (dsOut : List (String × List α)) (moved : List (List α))
    (h : shrinkLoop R ds ss st = some (st2, dsOut, moved))
    (hsh : ∀ p ∈ ss, ∀ l, lookup ds p.1 = some l → p.2 < l.length) :
    sumLens dsOut + (moved.map List.length).sum =
      (ss.map (fun p => ((lookup ds p.1).getD []).length)).sum := by
  induction ss generalizing st st2 dsOut moved with
  | nil =>
    simp only [shrinkLoop, Option.some.injEq, Prod.mk.injEq] at h
    obtain ⟨-, h2, h3⟩ := h
    simp [← h2, ← h3, sumLens]
  | cons p rest ih =>
    cases hl : lookup ds p.1 with
    | none => simp [shrinkLoop, hl] at h
    | some l =>
      have hsz : p.2 < l.length := hsh p (by simp) l hl
      have hlen : l.length > p.2 := hsz
      simp only [shrinkLoop, hl, if_pos hlen] at h
      cases hrec : shrinkLoop R ds rest (R.choice st l.length p.2).2 with
      | none => rw [hrec] at h; simp at h
      | some res =>
        obtain ⟨st2', dsOut', moved'⟩ := res
        rw [hrec] at h
        simp only [Option.some.injEq, Prod.mk.injEq] at h
        obtain ⟨-, h2, h3⟩ := h
        obtain ⟨hclen, hcnd, hclt⟩ :=
          hV st l.length p.2 (Nat.le_of_lt hsz)
        have hkept : (select l (R.choice st l.length p.2).1).length = p.2 := by
          rw [select_length l _ hclt, hclen]
        have hmovlen :
            (select l (setdiff l.length (R.choice st l.length p.2).1)).length
              = l.length - p.2 := by
          rw [select_length l _ (fun i hi => (mem_setdiff.mp hi).1),
            setdiff_length hcnd hclt, hclen]
        have hihs := ih _ _ _ _ hrec
          (fun q hq l' hl' => hsh q (by simp [hq]) l' hl')
        rw [← h2, ← h3]
        simp only [sumLens, List.map_cons, List.sum_cons] at hihs ⊢
        rw [hkept, hmovlen, hl]
        simp only [Option.getD_some]
        omega

theorem shrinkLoop_lookup {σ α : Type} (R : RngSpec σ) (hV : R.Valid)
    (ds : List (String × List α)) (ss : List (String × Nat)) (st st2 : σ)
    (dsOut : List (String × List α)) (moved : List (List α))
    (n : String) (sz : Nat) (l : List α)
    (hN : (ss.map Prod.fst).Nodup) (hmem : (n, sz) ∈ ss)
    (hl : lookup ds n = some l) (hsz : sz < l.length)
    (h : shrinkLoop R ds ss st = some (st2, dsOut, moved)) :
    ∃ kept, lookup dsOut n = some kept ∧ kept.length = sz := by
  induction ss generalizing st st2 dsOut moved with
  | nil => simp at hmem
  | cons p rest ih =>
    rcases List.mem_cons.mp hmem with hm | hm
    · subst hm
      simp only [List.map_cons] at hN
      simp only [shrinkLoop, hl, if_pos hsz] at h
      cases hrec : shrinkLoop R ds rest (R.choice st l.length sz).2 with
      | none => rw [hrec] at h; simp at h
      | some res =>
        obtain ⟨st2', dsOut', moved'⟩ := res
        rw [hrec] at h
        simp only [Option.some.injEq, Prod.mk.injEq] at h
        obtain ⟨-, h2, -⟩ := h
        obtain ⟨hclen, -, hclt⟩ := hV st l.length sz (Nat.le_of_lt hsz)
        refine ⟨select l (R.choice st l.length sz).1, ?_, ?_⟩
        · rw [← h2]; simp [lookup]
        · rw [select_length l _ hclt, hclen]
    · have hpn : p.1 ≠ n := by
        simp only [List.map_cons, List.nodup_cons] at hN
        intro hcon
        exact hN.1 (hcon ▸ List.mem_map.mpr ⟨(n, sz), hm, rfl⟩)
      have hN' : (rest.map Prod.fst).Nodup := by
        simp only [List.map_cons, List.nodup_cons] at hN
        exact hN.2
      cases hlp : lookup ds p.1 with
      | none => simp [shrinkLoop, hlp] at h
      | some lp =>
        by_cases hlen : lp.length > p.2
        · simp only [shrinkLoop, hlp, if_pos hlen] at h
          cases hrec : shrinkLoop R ds rest (R.choice st lp.length p.2).2 with
          | none => rw [hrec] at h; simp at h
          | some res =>
            obtain ⟨st2', dsOut', moved'⟩ := res
            rw [hrec] at h
            simp only [Option.some.injEq, Prod.mk.injEq] at h
            obtain ⟨-, h2, -⟩ := h
            obtain ⟨kept, hk1, hk2⟩ := ih _ _ _ _ hN' hm hrec
            refine ⟨kept, ?_, hk2⟩
            rw [← h2]
            simpa [lookup, hpn] using hk1
        · simp only [shrinkLoop, hlp, if_neg hlen] at h
          exact ih _ _ _ _ hN' hm h

theorem shrinkLoop_lookups {σ α : Type} (R : RngSpec σ)
    (ds : List (String × List α)) (ss : List (String × Nat)) (st : σ)
    (res : σ × List (String × List α) × List (List α))
    (h : shrinkLoop R ds ss st = some res) :
    ∀ p ∈ ss, ∃ l, lookup ds p.1 = some l := by
  intro p hp
  cases hl : lookup ds p.1 with
  | none =>
    rw [shrinkLoop_none R ds ss st ⟨p, hp, hl⟩] at h
    simp at h
  | some l => exact ⟨l, rfl⟩

/-! ### Restricted-total lemmas -/

theorem sumLens_append {α : Type} (a b : List (String × List α)) :
    sumLens (a ++ b) = sumLens a + sumLens b := by
  simp [sumLens]

theorem filter_key_single {α : Type} (ds : List (String × α)) (k : String)
    (v : α) (hN : (ds.map Prod.fst).Nodup) (hl : lookup ds k = some v) :
    ds.filter (fun p => decide (p.1 = k)) = [(k, v)] := by
  induction ds with
  | nil => simp [lookup] at hl
  | cons p rest ih =>
    simp only [List.map_cons, List.nodup_cons] at hN
    by_cases hp : p.1 = k
    · have hv : p.2 = v := by
        simp only [lookup, if_pos hp] at hl
        exact Option.some.inj hl
      have hrest : rest.filter (fun p => decide (p.1 = k)) = [] := by
        rw [List.filter_eq_nil_iff]
        intro q hq
        simp only [decide_eq_true_eq]
        intro hqk
        exact hN.1 (hp ▸ hqk ▸ List.mem_map.mpr ⟨q, hq, rfl⟩)
      have hpv : p = (k, v) := Prod.ext hp hv
      simp [List.filter_cons, hp, hrest, hpv]
    · have hl' : lookup rest k = some v := by
        simpa only [lookup, if_neg hp] using hl
      simp [List.filter_cons, hp, ih hN.2 hl']

theorem sumLens_filter_or {α : Type} (ds : List (String × List α))
    (P Q : String × List α → Prop) [DecidablePred P] [DecidablePred Q]
    (hdisj : ∀ p ∈ ds, ¬ (P p ∧ Q p)) :
    sumLens (ds.filter (fun p => decide (P p ∨ Q p))) =
      sumLens (ds.filter (fun p => decide (P p))) +
        sumLens (ds.filter (fun p => decide (Q p))) := by
  induction ds with
  | nil => simp [sumLens]
  | cons p rest ih =>
    have ih' := ih (fun q hq => hdisj q (by simp [hq]))
    have hd := hdisj p (by simp)
    by_cases hP : P p
    · have hQ : ¬ Q p := fun hq => hd ⟨hP, hq⟩
      simp [List.filter_cons, hP, hQ, sumLens, ih', sumLens] at ih' ⊢
      omega
    · by_cases hQ : Q p
      · simp [List.filter_cons, hP, hQ, sumLens] at ih' ⊢
        omega
      · simp [List.filter_cons, hP, hQ] at ih' ⊢
        exact ih'

theorem restrictTotal_eq {α : Type} (ds : List (String × List α))
    (names : List String) (grow : String) (g : List α)
    (hdsN : (ds.map Prod.fst).Nodup) (hnN : names.Nodup)
    (hgrow : grow ∉ names)
    (hnames : ∀ n ∈ names, ∃ v, lookup ds n = some v)
    (hg : lookup ds grow = some g) :
    restrictTotal ds names grow =
      (names.map (fun n => ((lookup ds n).getD []).length)).sum + g.length := by
  induction names with
  | nil =>
    have : ds.filter (fun p => decide (p.1 ∈ ([] : List String) ∨ p.1 = grow))
        = ds.filter (fun p => decide (p.1 = grow)) := by
      apply List.filter_congr
      intro p _
      simp
    rw [restrictTotal, this, filter_key_single ds grow g hdsN hg]
    simp [sumLens]
  | cons n rest ih =>
    obtain ⟨v, hv⟩ := hnames n (by simp)
    simp only [List.nodup_cons] at hnN
    simp only [List.mem_cons, not_or] at hgrow
    have hsplit : ds.filter (fun p => decide (p.1 ∈ n :: rest ∨ p.1 = grow))
        = ds.filter
            (fun p => decide (p.1 = n ∨ (p.1 ∈ rest ∨ p.1 = grow))) := by
      apply List.filter_congr
      intro p _
      simp only [List.mem_cons, decide_eq_decide]
      tauto
    have hdisj : ∀ p ∈ ds,
        ¬ ((fun q : String × List α => q.1 = n) p ∧
           (fun q : String × List α => q.1 ∈ rest ∨ q.1 = grow) p) := by
      intro p _
      rintro ⟨h1, h2 | h2⟩
      · exact hnN.1 (h1 ▸ h2)
      · exact hgrow.1 ((h1 ▸ h2 : n = grow)).symm
    have hor := sumLens_filter_or ds (fun q => q.1 = n)
      (fun q => q.1 ∈ rest ∨ q.1 = grow) hdisj
    have hone : sumLens (ds.filter (fun p => decide (p.1 = n)))
        = v.length := by
      rw [filter_key_single ds n v hdsN hv]
      simp [sumLens]
    have hrest : sumLens
        (ds.filter (fun p => decide (p.1 ∈ rest ∨ p.1 = grow)))
        = restrictTotal ds rest grow := rfl
    have hih := ih hnN.2 hgrow.2 (fun m hm => hnames m (by simp [hm]))
    rw [restrictTotal, hsplit, hor, hone, hrest, hih]
    simp only [List.map_cons, List.sum_cons, hv, Option.getD_some]
    omega

/-! ### Collator lemmas -/

theorem zipWith_mask_id (s : List Int) :
    List.zipWith (fun x b => if b ≠ 1 then (-100 : Int) else x) s
      (List.replicate s.length 1) = s := by
  induction s with
  | nil => rfl
  | cons a t ih =>
    rw [List.length_cons, List.replicate_succ, List.zipWith_cons_cons, ih]
    norm_num

theorem maskedFill_row (padId : Int) (m : Nat) (s : List Int) :
    maskedFill (padTo padId m s) (maskTo m s) =
      s ++ List.replicate (m - s.length) (-100) := by
  unfold maskedFill padTo maskTo
  rw [List.zipWith_append _ _ _ _ _ (by simp), zipWith_mask_id,
    List.zipWith_replicate]
  simp

theorem mkLabels_get (padId : Int) (seqs : List (List Int)) (i : Nat)
    (s : List Int) (hs : seqs[i]? = some s) :
    (mkLabels padId seqs)[i]? =
      some (s ++ List.replicate (maxLen seqs - s.length) (-100)) := by
  simp [mkLabels, List.getElem?_map, hs, maskedFill_row]

theorem maxLen_ge (seqs : List (List Int)) (s : List Int) (hs : s ∈ seqs) :
    s.length ≤ maxLen seqs := by
  induction seqs with
  | nil => simp at hs
  | cons a t ih =>
    rcases List.mem_cons.mp hs with h | h
    · subst h
      exact le_max_left _ _
    · exact le_trans (ih h) (le_max_right _ _)

theorem maskTo_one {m : Nat} {s : List Int} {t : Nat} :
    (maskTo m s)[t]? = some 1 ↔ t < s.length := by
  unfold maskTo
  rw [List.getElem?_append]
  by_cases h : t < s.length
  · simp [h, List.getElem?_replicate]
  · simp only [List.length_replicate, if_neg h, List.getElem?_replicate]
    constructor
    · intro hh
      by_cases h2 : t - s.length < m - s.length
      · rw [if_pos h2] at hh
        exact absurd (Option.some.inj hh) (by decide)
      · rw [if_neg h2] at hh
        exact absurd hh (by simp)
    · intro hh
      exact absurd hh h

theorem maskTo_zero {m : Nat} {s : List Int} {t : Nat} :
    (maskTo m s)[t]? = some 0 ↔
      s.length ≤ t ∧ t < s.length + (m - s.length) := by
  unfold maskTo
  rw [List.getElem?_append]
  by_cases h : t < s.length
  · rw [List.length_replicate, if_pos h, List.getElem?_replicate, if_pos h]
    constructor
    · intro hh
      exact absurd (Option.some.inj hh) (by decide)
    · intro hh
      exact absurd hh.1 (by omega)
  · simp only [List.length_replicate, if_neg h, List.getElem?_replicate]
    by_cases h2 : t - s.length < m - s.length
    · rw [if_pos h2]
      constructor
      · intro _
        omega
      · intro _
        rfl
    · rw [if_neg h2]
      constructor
      · intro hh
        exact absurd hh (by simp)
      · intro hh
        omega

theorem row_spec (m : Nat) (s : List Int) (o j : Nat) (x : Int)
    (hx : ((s ++ List.replicate (m - s.length) (-100)).drop o)[j]? = some x) :
    ((maskTo m s)[j + o]? = some 1 → (s.drop o)[j]? = some x) ∧
    ((maskTo m s)[j + o]? = some 0 → x = -100) := by
  rw [List.getElem?_drop] at hx
  constructor
  · intro h1
    have ht : j + o < s.length := maskTo_one.mp h1
    rw [List.getElem?_append, if_pos (show o + j < s.length by omega)] at hx
    rw [List.getElem?_drop]
    exact hx
  · intro h0
    obtain ⟨hge, hlt⟩ := maskTo_zero.mp h0
    rw [List.getElem?_append, if_neg (by omega),
      List.getElem?_replicate, if_pos (by omega)] at hx
    exact (Option.some.inj hx).symm

/-! ### Claim theorems -/

/-- C1: evaluation of the code at the failing input.  With
`ds = {"train": [0, 1]}`, `split_sizes = {"train": 1}` and
`grow_split = "train"`, the claim says the output growth split is built from
the kept-after-shrink examples (one example) with overflow appended, with no
example occurring more often than in the input.  The code instead
concatenates the *original* `ds["train"]` with the overflow, so the moved
example `1` occurs twice in the output while it occurs once in the input. -/
theorem spec_C1 :
    skrink_splits natRng [("train", [0, 1])] [("train", 1)] "train" 0 =
        some [("train", [0, 1, 1])] ∧
      ([0, 1, 1] : List Nat).count 1 = 2 ∧
      ([0, 1] : List Nat).count 1 = 1 := by
  refine ⟨by decide, by decide, by decide⟩

/-- C2 counterexample: a named split whose size does not exceed its target is
dropped from the output entirely, so the totals differ.  With
`ds = {"a": [7], "train": []}` and `split_sizes = {"a": 1}` the output is
`{"train": []}` with 0 examples, while the input restricted to
`{"a", "train"}` has 1 example. -/
theorem spec_C2_counterexample :
    skrink_splits natRng [("a", [7]), ("train", [])] [("a", 1)] "train" 0 =
        some [("train", [])] ∧
      sumLens [("train", ([] : List Nat))] = 0 ∧
      restrictTotal [("a", [7]), ("train", ([] : List Nat))] ["a"] "train"
        = 1 := by
  refine ⟨by decide, by decide, by decide⟩

/-- C2 (amended): if every named split strictly exceeds its target, the
growth split is present, and the growth split is not itself named in the
target-size mapping, then the total example count of the output equals the
total example count of the input restricted to the named splits and the
growth split. -/
theorem spec_C2 {σ α : Type} (R : RngSpec σ) (ds : List (String × List α))
    (ss : List (String × Nat)) (grow : String) (seed : Nat) (g : List α)
    (hV : R.Valid)
    (hdsN : (ds.map Prod.fst).Nodup) (hssN : (ss.map Prod.fst).Nodup)
    (hgrow : grow ∉ ss.map Prod.fst) (hg : lookup ds grow = some g)
    (hsh : ∀ p ∈ ss, ∃ l, lookup ds p.1 = some l ∧ p.2 < l.length) :
    ∃ out, skrink_splits R ds ss grow seed = some out ∧
      sumLens out = restrictTotal ds (ss.map Prod.fst) grow := by
  obtain ⟨⟨st2, dsOut, moved⟩, hloop⟩ :=
    shrinkLoop_some R ds ss (R.init seed)
      (fun p hp => (hsh p hp).imp (fun l hl => hl.1))
  refine ⟨dictSet dsOut grow (g ++ moved.flatten), ?_, ?_⟩
  · simp only [skrink_splits, hloop, hg]
  · have hnotmem : grow ∉ dsOut.map Prod.fst := by
      intro hmem
      obtain ⟨q, hq, hq1⟩ := List.mem_map.mp hmem
      obtain ⟨sz, l, hmemss, -, -⟩ :=
        shrinkLoop_keys R ds ss _ _ _ _ hloop q hq
      exact hgrow (hq1 ▸ List.mem_map.mpr ⟨(q.1, sz), hmemss, rfl⟩)
    have hsum := shrinkLoop_sum R hV ds ss _ _ _ _ hloop
      (fun p hp l hl => by
        obtain ⟨l', hl', hlt⟩ := hsh p hp
        rw [hl'] at hl
        exact (Option.some.inj hl) ▸ hlt)
    have hres := restrictTotal_eq ds (ss.map Prod.fst) grow g hdsN hssN
      hgrow (fun n hn => by
        obtain ⟨p, hp, hp1⟩ := List.mem_map.mp hn
        obtain ⟨l, hl, -⟩ := hsh p hp
        exact ⟨l, hp1 ▸ hl⟩) hg
    have hmap : ((ss.map Prod.fst).map
        (fun n => ((lookup ds n).getD []).length)).sum =
        (ss.map (fun p => ((lookup ds p.1).getD []).length)).sum := by
      rw [List.map_map]
      rfl
    have hsingle : sumLens [(grow, g ++ moved.flatten)] =
        g.length + (moved.map List.length).sum := by
      simp [sumLens, List.length_flatten]
    rw [dictSet_not_mem _ _ _ hnotmem, sumLens_append, hsingle, hres, hmap]
    omega

/-- C2 witness: the amended conservation theorem applied to the dataset
`{"test": [1, 2], "train": [3]}` with target sizes `{"test": 1}`. -/
theorem spec_C2_witness :
    ∃ out, skrink_splits natRng [("test", [1, 2]), ("train", [3])]
        [("test", 1)] "train" 0 = some out ∧
      sumLens out = restrictTotal [("test", [1, 2]), ("train", [3])]
        ["test"] "train" := by
  exact spec_C2 natRng [("test", [1, 2]), ("train", [3])] [("test", 1)]
    "train" 0 [3] natRng_valid (by decide) (by decide) (by decide) rfl
    (by
      intro p hp
      rw [List.mem_singleton] at hp
      subst hp
      exact ⟨[1, 2], rfl, by decide⟩)

/-- C3 counterexample: the claim asserts that a named split whose size is
*greater than or equal to* its target appears in the output with exactly the
target size.  With `ds = {"a": [7], "train": []}` and targets `{"a": 1}`
(size 1 = target 1), the output has no `"a"` split at all. -/
theorem spec_C3_counterexample :
    skrink_splits natRng [("a", [7]), ("train", [])] [("a", 1)] "train" 0 =
        some [("train", [])] ∧
      lookup [("train", ([] : List Nat))] "a" = none := by
  refine ⟨by decide, by decide⟩

/-- C3 (amended): every non-growth split named in the target-size mapping
whose size *strictly* exceeds its target appears in the output with exactly
the target number of examples. -/
theorem spec_C3 {σ α : Type} (R : RngSpec σ) (ds : List (String × List α))
    (ss : List (String × Nat)) (grow : String) (seed : Nat)
    (n : String) (sz : Nat) (l : List α) (out : List (String × List α))
    (hV : R.Valid) (hssN : (ss.map Prod.fst).Nodup)
    (hmem : (n, sz) ∈ ss) (hne : n ≠ grow)
    (hl : lookup ds n = some l) (hsz : sz < l.length)
    (hout : skrink_splits R ds ss grow seed = some out) :
    ∃ kept, lookup out n = some kept ∧ kept.length = sz := by
  cases hloop : shrinkLoop R ds ss (R.init seed) with
  | none =>
    simp only [skrink_splits, hloop] at hout
    exact Option.noConfusion hout
  | some res =>
    obtain ⟨st2, dsOut, moved⟩ := res
    cases hg : lookup ds grow with
    | none =>
      simp only [skrink_splits, hloop, hg] at hout
      exact Option.noConfusion hout
    | some g =>
      simp only [skrink_splits, hloop, hg, Option.some.injEq] at hout
      obtain ⟨kept, hk, hklen⟩ := shrinkLoop_lookup R hV ds ss _ _ _ _
        n sz l hssN hmem hl hsz hloop
      refine ⟨kept, ?_, hklen⟩
      rw [← hout, lookup_dictSet_ne _ grow n _ hne]
      exact hk

/-- C3 witness: the amended theorem applied to
`{"test": [1, 2], "train": [3]}` with targets `{"test": 1}`: the output
split `"test"` has exactly 1 example. -/
theorem spec_C3_witness :
    ∃ kept, lookup [("test", [1]), ("train", [3, 2])] "test" = some kept ∧
      kept.length = 1 := by
  exact spec_C3 natRng [("test", [1, 2]), ("train", [3])] [("test", 1)]
    "train" 0 "test" 1 [1, 2] [("test", [1]), ("train", [3, 2])]
    natRng_valid (by decide) (by decide) (by decide) rfl (by decide)
    (by decide)

/-- C6: when the shrink loop succeeds, the output growth split is the input
growth split followed by the overflow of each shrunk split in processing
order; and if no named split exceeds its target, the output growth split
equals the input growth split exactly. -/
theorem spec_C6 {σ α : Type} (R : RngSpec σ) (ds : List (String × List α))
    (ss : List (String × Nat)) (grow : String) (seed : Nat) (g : List α)
    (st2 : σ) (dsOut : List (String × List α)) (moved : List (List α))
    (hg : lookup ds grow = some g)
    (hngrow : ∀ sz, (grow, sz) ∈ ss →
      ∀ l, lookup ds grow = some l → l.length ≤ sz)
    (hloop : shrinkLoop R ds ss (R.init seed) = some (st2, dsOut, moved)) :
    skrink_splits R ds ss grow seed =
        some (dictSet dsOut grow (g ++ moved.flatten)) ∧
      lookup (dictSet dsOut grow (g ++ moved.flatten)) grow =
        some (g ++ moved.flatten) ∧
      ((∀ p ∈ ss, ∀ l, lookup ds p.1 = some l → l.length ≤ p.2) →
        skrink_splits R ds ss grow seed = some [(grow, g)]) := by
  refine ⟨by simp only [skrink_splits, hloop, hg],
    lookup_dictSet_self _ _ _, ?_⟩
  intro hnone
  have hsome := shrinkLoop_lookups R ds ss _ _ hloop
  have hnoop := shrinkLoop_noop R ds ss (R.init seed) hnone hsome
  rw [hloop] at hnoop
  simp only [Option.some.injEq, Prod.mk.injEq] at hnoop
  obtain ⟨-, h2, h3⟩ := hnoop
  subst h2
  subst h3
  simp only [skrink_splits, hloop, hg]
  simp [dictSet]

/-- C6 witness: the theorem applied to `{"test": [1], "train": [9]}` with
targets `{"test": 5}` (a no-op): the output growth split is exactly the
input growth split. -/
theorem spec_C6_witness :
    skrink_splits natRng [("test", [1]), ("train", [9])] [("test", 5)]
      "train" 0 = some [("train", [9])] := by
  refine (spec_C6 natRng [("test", [1]), ("train", [9])] [("test", 5)]
    "train" 0 [9] () [] [] rfl ?_ rfl).2.2 ?_
  · intro sz hsz
    simp at hsz
  · intro p hp l hl
    rw [List.mem_singleton] at hp
    subst hp
    have h1 : lookup [("test", [1]), ("train", [9])] "test" = some [1] := rfl
    rw [h1] at hl
    rw [← Option.some.inj hl]
    decide

/-- C7: determinism of the rebalancer.  The only source of randomness is the
generator seeded from the `seed` argument, so two runs with the same seed,
the same input dataset and the same target-size mapping (same contents and
iteration order) produce identical outputs. -/
theorem spec_C7 {σ α : Type} (R : RngSpec σ) (ds : List (String × List α))
    (ss : List (String × Nat)) (grow : String) (seed1 seed2 : Nat)
    (h : seed1 = seed2) :
    skrink_splits R ds ss grow seed1 = skrink_splits R ds ss grow seed2 := by
  rw [h]

/-- C7 witness: two runs on `{"test": [1, 2], "train": [3]}` with seed 0. -/
theorem spec_C7_witness :
    skrink_splits natRng [("test", [1, 2]), ("train", [3])] [("test", 1)]
        "train" 0 =
      skrink_splits natRng [("test", [1, 2]), ("train", [3])] [("test", 1)]
        "train" 0 :=
  spec_C7 natRng [("test", [1, 2]), ("train", [3])] [("test", 1)] "train"
    0 0 rfl

/-- C8: if some split named in the target-size mapping, or the growth split,
is absent from the input dataset, the rebalancer fails with a lookup error
(`none`): no partial output dataset is returned. -/
theorem spec_C8 {σ α : Type} (R : RngSpec σ) (ds : List (String × List α))
    (ss : List (String × Nat)) (grow : String) (seed : Nat)
    (h : (∃ p ∈ ss, lookup ds p.1 = none) ∨ lookup ds grow = none) :
    skrink_splits R ds ss grow seed = none := by
  rcases h with h | h
  · rw [skrink_splits, shrinkLoop_none R ds ss _ h]
  · cases hloop : shrinkLoop R ds ss (R.init seed) with
    | none => simp only [skrink_splits, hloop]
    | some res =>
      obtain ⟨st2, dsOut, moved⟩ := res
      simp only [skrink_splits, hloop, h]

/-- C8 witness: a target-size mapping naming the absent split `"b"`, and a
run with an absent growth split `"dev"`. -/
theorem spec_C8_witness :
    skrink_splits natRng [("train", [0])] [("b", 1)] "train" 0 = none ∧
      skrink_splits natRng [("train", [0, 1])] [("train", 1)] "dev" 0
        = none := by
  refine ⟨spec_C8 natRng [("train", [0])] [("b", 1)] "train" 0
    (Or.inl (by decide)), spec_C8 natRng [("train", [0, 1])]
    [("train", 1)] "dev" 0 (Or.inr (by decide))⟩

/-- C10: one step of the shrink loop on a shrunk split.  The examples moved
to the growth split are selected at the ascending-sorted complement of the
sampled indices (original relative order preserved), while the kept examples
are selected in the order the random sample produced them — an order that is
in general not a subsequence of the original (last conjunct). -/
theorem spec_C10 {σ α : Type} (R : RngSpec σ) (ds : List (String × List α))
    (n : String) (sz : Nat) (rest : List (String × Nat)) (st st2 : σ)
    (l : List α) (dsOut : List (String × List α)) (moved : List (List α))
    (hl : lookup ds n = some l) (hsz : l.length > sz)
    (hrest : shrinkLoop R ds rest (R.choice st l.length sz).2 =
      some (st2, dsOut, moved)) :
    shrinkLoop R ds ((n, sz) :: rest) st =
        some (st2, (n, select l (R.choice st l.length sz).1) :: dsOut,
          select l (setdiff l.length (R.choice st l.length sz).1) :: moved) ∧
      List.Pairwise (· < ·)
        (setdiff l.length (R.choice st l.length sz).1) ∧
      ∃ (l' idx : List Nat), idx.Nodup ∧ (∀ i ∈ idx, i < l'.length) ∧
        ¬ (select l' idx).Sublist l' := by
  refine ⟨?_, setdiff_sorted _ _, ⟨[0, 1], [1, 0], by decide, by decide,
    by decide⟩⟩
  simp only [shrinkLoop, hl, if_pos hsz, hrest]

/-- C10 witness: the step applied to the split `"a" = [5, 6]` with target 1:
the kept example is `[5]` and the moved overflow is `[6]`. -/
theorem spec_C10_witness :
    shrinkLoop natRng [("a", [5, 6])] [("a", 1)] () =
        some ((), [("a", [5])], [[6]]) ∧
      List.Pairwise (· < ·) (setdiff 2 (natRng.choice () 2 1).1) := by
  refine ⟨((spec_C10 natRng [("a", [5, 6])] "a" 1 [] () () [5, 6] [] []
    rfl (by decide) rfl).1).trans (by decide),
    (spec_C10 natRng [("a", [5, 6])] "a" 1 [] () () [5, 6] [] []
    rfl (by decide) rfl).2.1⟩

/-- C4: the BOS-stripping decision is batch-wide.  If every example's label
sequence begins with the beginning-of-sequence token id, the leading column
is stripped from every row of the label matrix; if at least one example's
label sequence does not begin with it, no row is stripped. -/
theorem spec_C4 (bos padId : Int) (seqs : List (List Int))
    (hne : seqs ≠ []) (hbos : bos ≠ -100) :
    ((∀ s ∈ seqs, s.head? = some bos) →
      collateLabels bos padId seqs =
        some ((mkLabels padId seqs).map (List.drop 1))) ∧
    ((∃ s ∈ seqs, ¬ s.head? = some bos) → 0 < maxLen seqs →
      collateLabels bos padId seqs = some (mkLabels padId seqs)) := by
  constructor
  · intro hall
    obtain ⟨s0, hs0⟩ := List.exists_mem_of_ne_nil seqs hne
    have hs0h := hall s0 hs0
    have hs0ne : s0 ≠ [] := by
      intro hh
      rw [hh] at hs0h
      simp at hs0h
    have hm : 0 < maxLen seqs :=
      lt_of_lt_of_le (List.length_pos.mpr hs0ne) (maxLen_ge seqs s0 hs0)
    have hbA : bosAll bos padId seqs = true := by
      rw [bosAll, List.all_eq_true]
      intro r hr
      obtain ⟨s, hs, hsr⟩ := List.mem_map.mp hr
      rw [maskedFill_row] at hsr
      cases s with
      | nil =>
        have := hall [] hs
        simp at this
      | cons a t =>
        have ha := hall _ hs
        simp only [List.head?_cons, Option.some.injEq] at ha
        rw [List.cons_append] at hsr
        rw [← hsr, List.getD_cons_zero, ha]
        simp
    have hm' : ¬ maxLen seqs = 0 := by omega
    simp [collateLabels, hm', hbA]
  · intro hdev hm
    obtain ⟨s, hs, hsh⟩ := hdev
    have hm' : ¬ maxLen seqs = 0 := by omega
    have hbA : bosAll bos padId seqs = false := by
      apply Bool.eq_false_iff.mpr
      intro hbtrue
      rw [bosAll, List.all_eq_true] at hbtrue
      have hrmem : maskedFill (padTo padId (maxLen seqs) s)
          (maskTo (maxLen seqs) s) ∈ mkLabels padId seqs :=
        List.mem_map.mpr ⟨s, hs, rfl⟩
      have hval := hbtrue _ hrmem
      rw [maskedFill_row] at hval
      cases s with
      | nil =>
        obtain ⟨k, hk⟩ : ∃ k, maxLen seqs = k + 1 :=
          ⟨maxLen seqs - 1, by omega⟩
        rw [List.nil_append, List.length_nil, Nat.sub_zero, hk,
          List.replicate_succ, List.getD_cons_zero] at hval
        exact hbos (beq_iff_eq.mp hval).symm
      | cons a t =>
        rw [List.cons_append, List.getD_cons_zero] at hval
        exact hsh (by rw [List.head?_cons, beq_iff_eq.mp hval])
    simp [collateLabels, hm', hbA]

/-- C4 witness: a batch whose sequences all start with token 1 is stripped
(`[[1,2],[1]] ↦ [[2],[-100]]`); a batch where the second sequence starts
with 3 instead is left unstripped (`[[1,2],[3]] ↦ [[1,2],[3,-100]]`). -/
theorem spec_C4_witness :
    collateLabels 1 9 [[1, 2], [1]] = some [[2], [-100]] ∧
      collateLabels 1 9 [[1, 2], [3]] = some [[1, 2], [3, -100]] := by
  constructor
  · exact ((spec_C4 1 9 [[1, 2], [1]] (by decide) (by decide)).1
      (by decide)).trans (by decide)
  · exact ((spec_C4 1 9 [[1, 2], [3]] (by decide) (by decide)).2
      (by decide) (by decide)).trans (by decide)

/-- C5: in every collated batch, an output label position whose attention
mask is 1 carries the original unpadded token id at that position (after
BOS-stripping when it was applied, i.e. at offset 1), and a position whose
attention mask is not 1 carries the ignore sentinel `-100`. -/
theorem spec_C5 (bos padId : Int) (seqs : List (List Int))
    (L : List (List Int)) (i j : Nat) (s row : List Int) (x : Int)
    (hL : collateLabels bos padId seqs = some L)
    (hs : seqs[i]? = some s) (hrow : L[i]? = some row)
    (hx : row[j]? = some x) :
    ((maskTo (maxLen seqs) s)[j +
        (if bosAll bos padId seqs then 1 else 0)]? = some 1 →
      (s.drop (if bosAll bos padId seqs then 1 else 0))[j]? = some x) ∧
    ((maskTo (maxLen seqs) s)[j +
        (if bosAll bos padId seqs then 1 else 0)]? = some 0 →
      x = -100) := by
  have hm : ¬ maxLen seqs = 0 := by
    intro hmm
    rw [collateLabels] at hL
    simp [hmm] at hL
  by_cases hbA : bosAll bos padId seqs
  · have hLeq : L = (mkLabels padId seqs).map (List.drop 1) := by
      simp [collateLabels, hm, hbA] at hL
      exact hL.symm
    have hroweq : row =
        (s ++ List.replicate (maxLen seqs - s.length) (-100)).drop 1 := by
      rw [hLeq, List.getElem?_map, mkLabels_get padId seqs i s hs] at hrow
      simp only [Option.map_some', Option.some.injEq] at hrow
      exact hrow.symm
    rw [hroweq] at hx
    simp only [if_pos hbA]
    exact row_spec (maxLen seqs) s 1 j x hx
  · have hLeq : L = mkLabels padId seqs := by
      simp [collateLabels, hm, hbA] at hL
      exact hL.symm
    have hroweq : row =
        (s ++ List.replicate (maxLen seqs - s.length) (-100)).drop 0 := by
      rw [List.drop_zero]
      rw [hLeq, mkLabels_get padId seqs i s hs] at hrow
      exact (Option.some.inj hrow).symm
    rw [hroweq] at hx
    simp only [if_neg hbA]
    exact row_spec (maxLen seqs) s 0 j x hx

/-- C5 witness: in the unstripped batch `[[1,2],[3]]` (bos 5), position 1 of
row 0 has mask 1 and carries the original token 2; in the stripped batch
`[[1,2],[1]]` (bos 1), position 0 of the output row 0 has mask 1 at offset 1
and carries the original second token 2. -/
theorem spec_C5_witness :
    (([1, 2] : List Int).drop 0)[1]? = some 2 ∧
      (([1, 2] : List Int).drop 1)[0]? = some 2 := by
  constructor
  · exact (spec_C5 5 9 [[1, 2], [3]] [[1, 2], [3, -100]] 0 1 [1, 2] [1, 2]
      2 (by decide) rfl rfl rfl).1 (by decide)
  · exact (spec_C5 1 9 [[1, 2], [1]] [[2], [-100]] 0 0 [1, 2] [2]
      2 (by decide) rfl rfl rfl).1 (by decide)

end WhisperFinetune
